import Mathlib

/-!
Verification of the `codegen` geometric-algebra engine.

The Rust source (`src/codegen/src/algebra.rs`, `main.rs`, `emit.rs`,
`rust.rs`, `glsl.rs`) is shallowly embedded below.  Machine integers are
modelled as `Nat`/`Int`; the blade-index type `BasisElementIndex = u16`
is modelled as a `Nat` that the theorems constrain to `< 2 ^ 16`.
Bitwise operations on `u16` are modelled with `Nat` bitwise operations
together with explicit 16-bit masks.  Shift amounts are reduced modulo
16, matching the release-mode semantics of Rust's shift operators (a
debug build panics at the same inputs, namely when a shift amount
reaches the bit width).  Fallible code (`assert!`, `unwrap`) is
modelled with `Option`.
-/

namespace GA

/-- `BasisElement` from `algebra.rs`: a basis blade as a `scalar : isize`
together with an `index : u16` bitmask of the generators present. -/
structure BasisElement where
  scalar : Int
  index : Nat
deriving DecidableEq, Repr

/-- The bit positions of a `u16`, low to high: models the range
`0..size_of::<BasisElementIndex>()*8` filtered by `(index >> i) & 1 != 0`
in `BasisElement::component_bits`. -/
def componentBits (x : Nat) : List Nat :=
  (List.range 16).filter (fun i => x.testBit i)

/-- `u16::count_ones`: the number of set bits among positions `0..16`. -/
def popCount (x : Nat) : Nat :=
  (componentBits x).length

/-- The 16-bit complement `!x` of a `u16` value `x < 2^16`. -/
def not16 (x : Nat) : Nat :=
  x ^^^ 65535

/-- `u16::trailing_zeros`: index of the lowest set bit, or 16 when the
value is zero. -/
def trailingZeros16 (x : Nat) : Nat :=
  (componentBits x).headD 16

/-- `BasisElement::grade`: `index.count_ones()`. -/
def grade (e : BasisElement) : Nat :=
  popCount e.index

/-- `BasisElement::from_index`. -/
def fromIndex (i : Nat) : BasisElement :=
  { scalar := 1, index := i }

/-- `GeometricAlgebra::basis_size`: `1 << generator_squares.len()`.  The
algebra itself is represented by its list of generator squares. -/
def basisSize (squares : List Int) : Nat :=
  1 <<< squares.length

/-- The closure folded over `a.component_bits()` in
`BasisElement::product`.  The state is `(commutations, a, b)`.
`u16::MAX << (index + 1)` is modelled as the 16-bit truncation of
`65535 <<< ((index + 1) % 16)`: Rust masks the shift amount modulo the
bit width in release builds (and panics in debug builds when
`index + 1 = 16`, which is reached exactly when bit 15 is set). -/
def commStep (st : Nat × Nat × Nat) (i : Nat) : Nat × Nat × Nat :=
  let hurdlesA := st.2.1 &&& ((65535 <<< ((i + 1) % 16)) &&& 65535)
  let hurdlesB := st.2.2 &&& ((1 <<< i) - 1)
  (st.1 + popCount (hurdlesA ||| hurdlesB),
   st.2.1 &&& not16 (1 <<< i),
   st.2.2 ^^^ (1 <<< i))

/-- The commutation count accumulated by the fold in
`BasisElement::product`. -/
def commutations (a b : Nat) : Nat :=
  ((componentBits a).foldl commStep (0, a, b)).1

/-- `BasisElement::product`, the geometric product.  The out-of-range
generator-square access `generator_squares[i]` (a Rust panic) is
modelled by `List.getD _ _ 1`; the bits of `a.index & b.index` stay
below the generator count for every in-range input. -/
def product (squares : List Int) (a b : BasisElement) : BasisElement :=
  { scalar :=
      ((componentBits (a.index &&& b.index)).map
        (fun i => squares.getD i 1)).foldl (fun x y => x * y)
        (a.scalar * b.scalar *
          (if commutations a.index b.index % 2 = 0 then 1 else -1)),
    index := a.index ^^^ b.index }

/-- `BasisElement::dual`: complement the index within the algebra and
scale by the scalar of `product(self, result)`, where `result` is first
built with the element's own scalar. -/
def dual (squares : List Int) (e : BasisElement) : BasisElement :=
  { scalar := e.scalar *
      (product squares e
        { scalar := e.scalar, index := basisSize squares - 1 - e.index }).scalar,
    index := basisSize squares - 1 - e.index }

/-- `Ord for BasisElement`: order by grade, then by which side owns the
lowest differing index bit (`trailing_zeros` comparison of the two
set differences). -/
def cmpBE (a b : BasisElement) : Ordering :=
  if grade a < grade b then .lt
  else if grade b < grade a then .gt
  else if trailingZeros16 (a.index &&& not16 b.index) <
      trailingZeros16 (b.index &&& not16 a.index) then .lt
  else .gt

/-- One element of `GeometricAlgebra::basis()`: start from
`from_index(index)` and, when the dual sorts strictly before the
element, adopt the dual's scalar. -/
def basisElement (squares : List Int) (i : Nat) : BasisElement :=
  if cmpBE (dual squares (fromIndex i)) (fromIndex i) = .lt then
    { scalar := (dual squares (fromIndex i)).scalar, index := i }
  else fromIndex i

/-- `GeometricAlgebra::basis()` collected into a list. The iteration
bound is `basis_size() as BasisElementIndex`: the `usize` count is
truncated to `u16` (`% 65536`), so at 16 generators the range is
`0..0` and the basis comes out empty. -/
def basisList (squares : List Int) : List BasisElement :=
  (List.range (basisSize squares % 65536)).map (basisElement squares)

/-- Insert into a sorted list, keeping existing elements first on ties:
together with `insertionSortBE` this models the behavioural contract of
`Vec::sort` (a stable comparison sort driven by `Ord`). -/
def orderedInsertBE (le : BasisElement → BasisElement → Bool)
    (x : BasisElement) : List BasisElement → List BasisElement
  | [] => [x]
  | y :: ys =>
    if le x y then x :: y :: ys else y :: orderedInsertBE le x ys

/-- Stable comparison sort used to model `Vec::sort` in `sorted_basis`. -/
def insertionSortBE (le : BasisElement → BasisElement → Bool) :
    List BasisElement → List BasisElement
  | [] => []
  | x :: xs => orderedInsertBE le x (insertionSortBE le xs)

/-- `GeometricAlgebra::sorted_basis`: `basis()` sorted ascending by
`Ord for BasisElement` (an element precedes another when `cmp` does not
return `Greater`). -/
def sortedBasis (squares : List Int) : List BasisElement :=
  insertionSortBE (fun a b => cmpBE a b != Ordering.gt) (basisList squares)

/-- `char::to_digit(16)`. -/
def toDigit16 (c : Char) : Option Nat :=
  if '0' ≤ c ∧ c ≤ '9' then some (c.toNat - '0'.toNat)
  else if 'a' ≤ c ∧ c ≤ 'f' then some (c.toNat - 'a'.toNat + 10)
  else if 'A' ≤ c ∧ c ≤ 'F' then some (c.toNat - 'A'.toNat + 10)
  else none

/-- `BasisElement::parse`.  A leading `-` negates the scalar; `"1"` is
the scalar blade; otherwise the token is `e` followed by hexadecimal
generator digits, each asserted to be below the generator count, and the
result is built by repeated `product` with single-generator blades.
The Rust panics (failed `assert!`/`assert_eq!`/`unwrap`) are modelled
as `none`. -/
def parse (squares : List Int) (name : String) : Option BasisElement :=
  let (scalar, rest) :=
    match name.toList with
    | '-' :: cs => ((-1 : Int), cs)
    | cs => ((1 : Int), cs)
  if rest = ['1'] then some { scalar := scalar, index := 0 }
  else
    match rest with
    | 'e' :: digits =>
      digits.foldlM
        (fun acc c => do
          let d ← toDigit16 c
          if d < squares.length then
            some (product squares acc (fromIndex (1 <<< d)))
          else none)
        { scalar := scalar, index := 0 }
    | _ => none

/-- Hexadecimal digit rendering, `format!("\x7b:X\x7d", index)` for one
bit position. -/
def hexDigit (i : Nat) : String :=
  String.singleton ("0123456789ABCDEF".toList.getD i '?')

/-- `Display for BasisElement` (without the table's column padding): a
`-` prefix for a negative scalar, then `"0"` for a zero scalar, `"1"`
for the scalar blade, otherwise `e` followed by the hexadecimal
component bit indices, low to high. -/
def displayBE (e : BasisElement) : String :=
  (if 0 ≤ e.scalar then "" else "-") ++
    (if e.scalar = 0 then "0"
     else if e.index = 0 then "1"
     else "e" ++ String.join ((componentBits e.index).map hexDigit))

/-- The Cayley table printed by `main`: one line per element `b` of
`sorted_basis()` (the rows), and within a line one cell per element `a`
(the columns), each cell showing `product(a, b)`. -/
def cayleyTable (squares : List Int) : List (List String) :=
  (sortedBasis squares).map (fun b =>
    (sortedBasis squares).map (fun a => displayBE (product squares a b)))

/-- `ProductTerm` from `algebra.rs`. -/
structure ProductTerm where
  product : BasisElement
  factorA : BasisElement
  factorB : BasisElement
deriving DecidableEq, Repr

/-- `Product::new`: all pairwise products of the two blade lists,
keeping the terms with a nonzero product scalar. -/
def productNew (squares : List Int) (a b : List BasisElement) :
    List ProductTerm :=
  (a.flatMap (fun x =>
    b.map (fun y =>
      { product := product squares x y, factorA := x, factorB := y }))).filter
    (fun t => t.product.scalar ≠ 0)

/-- `Product::projected`: keep the terms whose factor and product grades
satisfy the predicate. -/
def projected (terms : List ProductTerm) (f : Nat → Nat → Nat → Bool) :
    List ProductTerm :=
  terms.filter (fun t => f (grade t.factorA) (grade t.factorB) (grade t.product))

/-- `Product::dual`: dualize every blade of every term. -/
def dualTerms (squares : List Int) (terms : List ProductTerm) :
    List ProductTerm :=
  terms.map (fun t =>
    { product := dual squares t.product,
      factorA := dual squares t.factorA,
      factorB := dual squares t.factorB })

/-- `Product::products`: the seven named products, all built from the
full geometric-product table over `basis()`. -/
def products (squares : List Int) : List (String × List ProductTerm) :=
  let basis := basisList squares
  let p := productNew squares basis basis
  [("GeometricProduct", p),
   ("RegressiveProduct",
     dualTerms squares (projected p (fun r s t => t == r + s))),
   ("OuterProduct", projected p (fun r s t => t == r + s)),
   ("InnerProduct",
     projected p (fun r s t => t == ((r : Int) - (s : Int)).natAbs)),
   ("LeftContraction",
     projected p (fun r s t => (t : Int) == (s : Int) - (r : Int))),
   ("RightContraction",
     projected p (fun r s t => (t : Int) == (r : Int) - (s : Int))),
   ("ScalarProduct", projected p (fun _ _ t => t == 0))]

/-- `Involution::identity`: every basis blade maps to itself. -/
def identityInvolution (squares : List Int) :
    List (BasisElement × BasisElement) :=
  (basisList squares).map (fun e => (e, e))

/-- `Involution::negated`: negate the mapped value on selected grades. -/
def negated (terms : List (BasisElement × BasisElement))
    (gradeNegation : Nat → Bool) : List (BasisElement × BasisElement) :=
  terms.map (fun kv =>
    (kv.1,
     { scalar := kv.2.scalar * (if gradeNegation (grade kv.2) then -1 else 1),
       index := kv.2.index }))

/-- `Involution::dual`: apply `dual` to every mapped value. -/
def dualInvolution (squares : List Int)
    (terms : List (BasisElement × BasisElement)) :
    List (BasisElement × BasisElement) :=
  terms.map (fun kv => (kv.1, dual squares kv.2))

/-- `Involution::involutions`: the five named involutions, derived from
the identity involution. -/
def involutions (squares : List Int) :
    List (String × List (BasisElement × BasisElement)) :=
  let involution := identityInvolution squares
  [("Neg", negated involution (fun _ => true)),
   ("Automorphism", negated involution (fun g => g % 2 == 1)),
   ("Reversal", negated involution (fun g => g % 4 ≥ 2)),
   ("Conjugation", negated involution (fun g => (g + 3) % 4 < 2)),
   ("Dual", dualInvolution squares involution)]

/-- `MultiVectorClass` from `algebra.rs`: a name plus grouped blades. -/
structure MultiVectorClass where
  className : String
  groupedBasis : List (List BasisElement)
deriving DecidableEq, Repr

/-- Modelled from the spec: `MultiVectorClass::flat_basis` lives in the
missing `compile.rs`; the spec describes the flattened blade sequence
across all groups. -/
def flatBasis (c : MultiVectorClass) : List BasisElement :=
  c.groupedBasis.flatten

/-- Modelled from the spec: `MultiVectorClass::signature` lives in the
missing `compile.rs`; per §3, `signature(class)` is the flattened
sequence of blade indices across all groups. -/
def signatureOf (c : MultiVectorClass) : List Nat :=
  (flatBasis c).map (fun e => e.index)

/-- Modelled from the spec: `MultiVectorClass::is_scalar` lives in the
missing `compile.rs`; per §4.2 it is true exactly when the class holds
the grade-0 scalar blade and nothing else, which this model reads off
the signature. -/
def isScalarClass (c : MultiVectorClass) : Bool :=
  signatureOf c == [0]

/-- `MultiVectorClassRegistry`: the class list plus the
signature-to-position index.  The `HashMap` is modelled as an
association list where an inserted key shadows earlier entries. -/
structure Registry where
  classes : List MultiVectorClass
  indexBySignature : List (List Nat × Nat)
deriving Repr

/-- `MultiVectorClassRegistry::register`: index the class under its
signature at the position it is about to occupy, then append it. -/
def Registry.register (r : Registry) (c : MultiVectorClass) : Registry :=
  { classes := r.classes ++ [c],
    indexBySignature := (signatureOf c, r.classes.length) :: r.indexBySignature }

/-- `MultiVectorClassRegistry::get`: exact-signature lookup through the
index, then the class list. -/
def Registry.get (r : Registry) (s : List Nat) : Option MultiVectorClass :=
  ((r.indexBySignature.find? (fun kv => kv.1 == s)).map (fun kv => kv.2)).bind
    (fun i => r.classes[i]?)

/-- The registry built by `main` from a configuration's class list. -/
def Registry.ofList (cs : List MultiVectorClass) : Registry :=
  cs.foldl Registry.register { classes := [], indexBySignature := [] }

/-- First-occurrence deduplication, used to describe a term list's set
of result blade indices as a lookup signature. -/
def dedupFirst (l : List Nat) : List Nat :=
  l.foldl (fun acc i => if i ∈ acc then acc else acc ++ [i]) []

/-- Modelled from the spec: presence of the IR node built by
`MultiVectorClass::involution` (missing `compile.rs`).  A derivation
that needs a not-yet-available prerequisite yields the empty sentinel
(§4.4); the node exists when the registry holds a class whose signature
matches the mapped blades of the class's own basis. -/
def involutionDerivable (reg : Registry)
    (inv : List (BasisElement × BasisElement)) (a : MultiVectorClass) : Bool :=
  let restricted := inv.filter (fun kv => kv.1.index ∈ signatureOf a)
  (reg.get (dedupFirst (restricted.map (fun kv => kv.2.index)))).isSome

/-- Modelled from the spec: the per-pair named products of §4.4 phase 2,
built like `Product::products` but over the two classes' flattened
blade lists (§3: a `Product` is the term set over two blade lists,
keeping nonzero scalars). -/
def pairNamedProducts (squares : List Int) (a b : MultiVectorClass) :
    List (String × List ProductTerm) :=
  let p := productNew squares (flatBasis a) (flatBasis b)
  [("GeometricProduct", p),
   ("RegressiveProduct",
     dualTerms squares (projected p (fun r s t => t == r + s))),
   ("OuterProduct", projected p (fun r s t => t == r + s)),
   ("InnerProduct",
     projected p (fun r s t => t == ((r : Int) - (s : Int)).natAbs)),
   ("LeftContraction",
     projected p (fun r s t => (t : Int) == (s : Int) - (r : Int))),
   ("RightContraction",
     projected p (fun r s t => (t : Int) == (r : Int) - (s : Int))),
   ("ScalarProduct", projected p (fun _ _ t => t == 0))]

/-- Modelled from the spec: presence of the IR node built by
`MultiVectorClass::product` (missing `compile.rs`): the node exists when
the registry holds a class whose signature matches the term list's
result blade indices. -/
def pairProductDerivable (reg : Registry) (terms : List ProductTerm) : Bool :=
  (reg.get (dedupFirst (terms.map (fun t => t.product.index)))).isSome

/-- The operation names recorded in the pair table of `(A, B)` during
phase 2 of the synthesis pass in `main`: the conversion for distinct
classes, element-wise `Add`/`Sub`, element-wise `Mul`/`Div` for equal
classes, and the seven named products.  The element-wise result basis is
modelled from the spec as the union of the two signatures. -/
def pairOps (squares : List Int) (reg : Registry)
    (a b : MultiVectorClass) : List String :=
  (if a ≠ b ∧
      involutionDerivable reg ((flatBasis b).map (fun e => (e, e))) a then
    ["Into"] else []) ++
  (if (reg.get (dedupFirst (signatureOf a ++ signatureOf b))).isSome then
    ["Add", "Sub"] else []) ++
  (if a = b ∧ (reg.get (dedupFirst (signatureOf a))).isSome then
    ["Mul", "Div"] else []) ++
  ((pairNamedProducts squares a b).filter
    (fun np => pairProductDerivable reg np.2)).map (fun np => np.1)

/-- The values of the `BTreeMap` keyed by class name that `main` builds
over the registered classes: for every name, the last registered class
with that name survives. -/
def pairValues (reg : Registry) : List MultiVectorClass :=
  reg.classes.foldl
    (fun acc b => acc.filter (fun x => x.className ≠ b.className) ++ [b]) []

/-- Phase 1 of the synthesis pass for one class: the constants (always
derivable from the algebra alone, per §4.4) and the derivable named
involutions. -/
def singleOpsBase (squares : List Int) (reg : Registry)
    (a : MultiVectorClass) : List String :=
  ["Zero", "One"] ++
    ((involutions squares).filter
      (fun ni => involutionDerivable reg ni.2 a)).map (fun ni => ni.1)

/-- Phases 1–3: `SquaredMagnitude` and `Magnitude` are added when some
pair value equal to the class itself has a `ScalarProduct` and the class
has `Reversal`, as in `main`. -/
def singleOpsMid (squares : List Int) (reg : Registry)
    (a : MultiVectorClass) : List String :=
  let base := singleOpsBase squares reg a
  base ++
    (if (pairValues reg).any (fun b =>
        decide (b = a) && decide ("ScalarProduct" ∈ pairOps squares reg a b) &&
          decide ("Reversal" ∈ base)) then
      ["SquaredMagnitude", "Magnitude"] else [])

/-- Phases 1–4: `Signum` and `Inverse` are added when some scalar-shaped
pair value has a `GeometricProduct` with the class and the stated
single-table prerequisites are present, as in `main`. -/
def singleOpsFinal (squares : List Int) (reg : Registry)
    (a : MultiVectorClass) : List String :=
  let mid := singleOpsMid squares reg a
  mid ++
    (if (pairValues reg).any (fun b =>
        decide ("GeometricProduct" ∈ pairOps squares reg a b) &&
          isScalarClass b && decide ("Magnitude" ∈ mid)) then
      ["Signum"] else []) ++
    (if (pairValues reg).any (fun b =>
        decide ("GeometricProduct" ∈ pairOps squares reg a b) &&
          isScalarClass b && decide ("SquaredMagnitude" ∈ mid) &&
          decide ("Reversal" ∈ mid)) then
      ["Inverse"] else [])

/-- A reduced form of `AstNode` from `ast.rs`: the empty sentinel, the
preamble, and a synthesized operation.  Only the sentinel is
load-bearing for the properties below; the other constructors stand for
the remaining node kinds. -/
inductive AstNode where
  | None
  | Preamble
  | TraitImplementation (name : String)
deriving DecidableEq, Repr

/-- `rust::emit_code`: the sentinel `AstNode::None` writes nothing; the
other constructors write nonempty renderings (abbreviated here — their
exact text is irrelevant to the properties below). -/
def emitRust : AstNode → String
  | .None => ""
  | .Preamble => "#![allow(clippy::assign_op_pattern)]\n"
  | .TraitImplementation name => "impl " ++ name ++ " for ...\n"

/-- `glsl::emit_code`: the sentinel `AstNode::None` writes nothing. -/
def emitGlsl : AstNode → String
  | .None => ""
  | .Preamble => "#version 450\n"
  | .TraitImplementation name => name ++ "(...) \n"

/-- One operation step of the synthesis pass in `main`: the produced
node is handed to `Emitter::emit` unconditionally (the returned list is
the trace of nodes passed to the emitter), and it is inserted into the
memo table only when it differs from the sentinel. -/
def synthesisStep (table : List (String × AstNode)) (name : String)
    (node : AstNode) : (List (String × AstNode)) × List AstNode :=
  ((if node ≠ AstNode.None then (name, node) :: table else table), [node])

/-! Proof-side definitions used to state and prove facts about the
embedding. -/

/-- The set of `u16` bit positions set in `x`. -/
def bset (x : Nat) : Finset ℕ :=
  (Finset.range 16).filter (fun i => x.testBit i)

/-- The number of pairs `(i, j)` with `i` a bit of the first set, `j` a
bit of the second set, and `j < i`: the commutation count of the
geometric product in set form. -/
def epsilonCount (A B : Finset ℕ) : ℕ :=
  ∑ i ∈ A, (B.filter (fun j => j < i)).card

/-- The state of the `commutations` fold after the bits below `k` have
been processed. -/
def commAccum (a b k : Nat) : Nat × Nat × Nat :=
  ((List.range k).filter (fun i => a.testBit i)).foldl commStep (0, a, b)

/-!  Theorems.  -/

/-- C1: `product` is not associative on the code as written: with
sixteen generators (the maximum the `u16` index type advertises), the
blade `e15` (index `0x8000`) drives the shift `u16::MAX << 16`, which a
release build masks to a shift by zero — the evaluation below — and a
debug build turns into an arithmetic-overflow panic.  Either way
`product(product(a,b),c)` and `product(a,product(b,c))` do not agree at
`a = b = c = e15` with all generator squares `1`. -/
theorem c1_product_assoc_eval :
    product (List.replicate 16 1)
        (product (List.replicate 16 1) ⟨1, 32768⟩ ⟨1, 32768⟩) ⟨1, 32768⟩ ≠
      product (List.replicate 16 1) ⟨1, 32768⟩
        (product (List.replicate 16 1) ⟨1, 32768⟩ ⟨1, 32768⟩) := by
  decide

/-- C2, counterexample: in the one-generator algebra with square `1`,
the term `(e0, e0, e0)` belongs to `RegressiveProduct` but is not a term
of the full geometric-product table (whose `(e0, e0)` entry is the
scalar), its factor grades being `(1, 1)`.  So `RegressiveProduct` is
not a grade-predicate-selected subset of the table, and the union of the
seven products over factor grades `(1, 1)` strictly exceeds the
nonzero geometric-product terms at `(1, 1)`. -/
theorem c2_counterexample :
    ((products [1]).getD 1 ("", [])).1 = "RegressiveProduct" ∧
    (⟨⟨1, 1⟩, ⟨1, 1⟩, ⟨1, 1⟩⟩ : ProductTerm) ∈
      ((products [1]).getD 1 ("", [])).2 ∧
    (⟨⟨1, 1⟩, ⟨1, 1⟩, ⟨1, 1⟩⟩ : ProductTerm) ∉
      productNew [1] (basisList [1]) (basisList [1]) ∧
    grade (⟨1, 1⟩ : BasisElement) = 1 := by
  decide

/-- C4, counterexample: when the synthesized node is the sentinel
`AstNode::None`, the orchestration layer does not skip emission — the
sentinel is still handed to `Emitter::emit` (the emit trace is
`[AstNode.None]`, not `[]`); only the memo-table registration is
skipped. -/
theorem c4_counterexample :
    (synthesisStep [] "GeometricProduct" AstNode.None).2 = [AstNode.None] ∧
    (synthesisStep [] "GeometricProduct" AstNode.None).2 ≠ [] ∧
    (synthesisStep [] "GeometricProduct" AstNode.None).1 = [] := by
  decide

/-- C4, amended: for every operation node produced during the synthesis
pass, the orchestration layer skips recording it in the memo tables
exactly when it equals the sentinel, while the node is always handed to
the emitter; both emitters render the sentinel as no text, so a
sentinel never contributes text to either rendered output. -/
theorem c4_sentinel_handling (table : List (String × AstNode))
    (name : String) (node : AstNode) :
    ((synthesisStep table name node).1 = table ↔ node = AstNode.None) ∧
    (synthesisStep table name node).2 = [node] ∧
    ((synthesisStep table name node).2.map emitRust).foldl
      (fun x y => x ++ y) "" = emitRust node ∧
    emitRust AstNode.None = "" ∧ emitGlsl AstNode.None = "" := by
  refine ⟨?_, rfl, ?_, rfl, rfl⟩
  · constructor
    · intro h1
      by_contra hne
      have h2 : (synthesisStep table name node).1 = (name, node) :: table := by
        simp [synthesisStep, hne]
      rw [h2] at h1
      have h3 := congrArg List.length h1
      simp at h3
    · intro hn
      simp [synthesisStep, hn]
  · simp [synthesisStep]

/-- The geometric product of blades with no common generator: the
squares fold is empty, so only the scalars and the commutation sign
remain. -/
theorem product_disjoint (squares : List Int) (a b : BasisElement)
    (h : a.index &&& b.index = 0) :
    product squares a b =
      ⟨a.scalar * b.scalar *
        (if commutations a.index b.index % 2 = 0 then 1 else -1),
       a.index ^^^ b.index⟩ := by
  unfold product
  rw [h, (by decide : componentBits 0 = [])]
  rfl

/-- C6, counterexample: parsing `"-e13"` against a 3-generator algebra
does not succeed: the hexadecimal digit `3` fails the assertion that a
generator digit be below the generator count (the digits are generator
indices, not 1-based labels), so the Rust code panics. -/
theorem c6_counterexample : parse [1, 1, 1] "-e13" = none := by
  decide

/-- C6, amended: against a 4-generator algebra, `"-e13"` parses to the
blade with index `bit1 ||| bit3` and scalar `-1` combined with the
reordering sign accumulated by building the blade through `product`,
and the result equals `product(e1, e3)` negated. -/
theorem c6_parse_blade (squares : List Int) (h : squares.length = 4) :
    parse squares "-e13" = some ⟨-1, 2 ||| 8⟩ ∧
    parse squares "-e13" =
      some ⟨-(product squares (fromIndex (1 <<< 1))
              (fromIndex (1 <<< 3))).scalar,
            (product squares (fromIndex (1 <<< 1))
              (fromIndex (1 <<< 3))).index⟩ := by
  obtain ⟨a, b, c, d, rfl⟩ : ∃ a b c d, squares = [a, b, c, d] := by
    rcases squares with _ | ⟨a, _ | ⟨b, _ | ⟨c, _ | ⟨d, _ | rest⟩⟩⟩⟩ <;>
      simp only [List.length] at h <;> try omega
    exact ⟨a, b, c, d, rfl⟩
  have h1 : parse [a, b, c, d] "-e13" = some ⟨-1, 10⟩ := by
    simp only [parse, String.toList]
    rw [if_neg (by decide)]
    simp only [List.foldlM_cons, List.foldlM_nil, List.length_cons,
      List.length_nil, (by decide : toDigit16 '1' = some 1),
      (by decide : toDigit16 '3' = some 3)]
    simp only [Option.bind_eq_bind, Option.some_bind]
    rw [product_disjoint _ _ _ (by decide)]
    norm_num [fromIndex, (by decide : commutations 0 2 = 0),
      (by decide : (0 : Nat) ^^^ 2 = 2)]
    rw [product_disjoint _ _ _ (by decide)]
    decide
  have h2 : product [a, b, c, d] (fromIndex (1 <<< 1)) (fromIndex (1 <<< 3)) =
      ⟨1, 10⟩ := by
    rw [product_disjoint _ _ _ (by decide)]
    decide
  rw [h1, h2]
  exact ⟨by decide, by decide⟩

/-- C6, witness for the amended statement at a concrete algebra. -/
theorem c6_parse_blade_witness :
    ([1, 1, 1, 1] : List Int).length = 4 ∧
      parse [1, 1, 1, 1] "-e13" = some ⟨-1, 2 ||| 8⟩ :=
  ⟨by decide, (c6_parse_blade [1, 1, 1, 1] (by decide)).1⟩

/-- C7, counterexample: in the two-generator algebra with squares
`[1, 1]` there is no single sign `s ∈ {1, -1}` with
`dual(dual(e)) = s · e` for every basis blade `e`: the double dual
fixes the scalar blade but negates `e0`. -/
theorem c7_counterexample :
    ¬ ∃ s : Int, (s = 1 ∨ s = -1) ∧
      ∀ e ∈ basisList [1, 1],
        dual [1, 1] (dual [1, 1] e) = ⟨s * e.scalar, e.index⟩ := by
  rintro ⟨s, hs | hs, h⟩ <;> subst hs
  · exact absurd (h ⟨1, 1⟩ (by decide)) (by decide)
  · exact absurd (h ⟨1, 0⟩ (by decide)) (by decide)

/-- C8, counterexample: in the algebra with squares `[1, 1]` the printed
cell at row 1, column 2 of the Cayley table is `"e01"`, while the
rendering of `product(row, col)` for those positions is `"-e01"`: the
cells hold `product(col, row)`, not `product(row, col)`. -/
theorem c8_counterexample :
    ((cayleyTable [1, 1]).getD 1 []).getD 2 "" = "e01" ∧
    (sortedBasis [1, 1]).getD 1 ⟨0, 0⟩ = ⟨1, 1⟩ ∧
    (sortedBasis [1, 1]).getD 2 ⟨0, 0⟩ = ⟨-1, 2⟩ ∧
    displayBE (product [1, 1] ((sortedBasis [1, 1]).getD 1 ⟨0, 0⟩)
        ((sortedBasis [1, 1]).getD 2 ⟨0, 0⟩)) = "-e01" ∧
    ("e01" : String) ≠ "-e01" := by
  decide

/-- C8, amended: the Cayley table's rows and columns are both indexed by
`sorted_basis()`, and the cell at row `r`, column `c` is the
signed-blade rendering of `product(c, r)` — the column element
multiplied by the row element. -/
theorem c8_cayley_table (squares : List Int) :
    (cayleyTable squares).length = (sortedBasis squares).length ∧
    (∀ row ∈ cayleyTable squares,
      row.length = (sortedBasis squares).length) ∧
    ∀ r c : Nat,
      ((cayleyTable squares)[r]?.bind (fun row => row[c]?)) =
        ((sortedBasis squares)[r]?.bind (fun br =>
          ((sortedBasis squares)[c]?.map (fun ac =>
            displayBE (product squares ac br))))) := by
  refine ⟨by simp [cayleyTable], ?_, ?_⟩
  · intro row hrow
    rcases List.mem_map.mp hrow with ⟨b, _, rfl⟩
    simp
  · intro r c
    unfold cayleyTable
    rcases hr : (sortedBasis squares)[r]? with _ | br
    · simp [List.getElem?_map, hr]
    · simp [List.getElem?_map, hr]

theorem registerAll_spec : ∀ (cs : List MultiVectorClass) (r : Registry),
    (∀ p ∈ r.indexBySignature, p.2 < r.classes.length) →
    (cs.foldl Registry.register r).classes = r.classes ++ cs ∧
    (∀ p ∈ (cs.foldl Registry.register r).indexBySignature,
      p.2 < (cs.foldl Registry.register r).classes.length) ∧
    ∀ s, (cs.foldl Registry.register r).get s =
      (cs.reverse.find? (fun c => signatureOf c == s)).or (r.get s) := by
  intro cs
  induction cs with
  | nil =>
    intro r hr
    refine ⟨by simp, hr, ?_⟩
    intro s
    simp [Option.or]
  | cons c cs ih =>
    intro r hr
    have hr' : ∀ p ∈ (Registry.register r c).indexBySignature,
        p.2 < (Registry.register r c).classes.length := by
      intro p hp
      simp only [Registry.register, List.mem_cons] at hp
      rcases hp with rfl | hp
      · simp [Registry.register]
      · have := hr p hp
        simp only [Registry.register, List.length_append, List.length_cons,
          List.length_nil]
        omega
    have h := ih (Registry.register r c) hr'
    have hget : ∀ s, (Registry.register r c).get s =
        if (signatureOf c == s) = true then some c else r.get s := by
      intro s
      by_cases hcs : (signatureOf c == s) = true
      · rw [if_pos hcs]
        simp only [Registry.get, Registry.register]
        simp only [List.find?, hcs]
        simp [List.getElem?_concat_length]
      · rw [if_neg hcs]
        have hcs2 : (signatureOf c == s) = false := by
          simpa using hcs
        simp only [Registry.get, Registry.register]
        simp only [List.find?, hcs2]
        rcases hfind : r.indexBySignature.find? (fun kv => kv.1 == s) with _ | kv
        · simp [Registry.get, hfind]
        · have hmem := List.mem_of_find?_eq_some hfind
          have hlt := hr kv hmem
          simp [Registry.get, hfind, List.getElem?_append_left hlt]
    refine ⟨?_, h.2.1, ?_⟩
    · rw [List.foldl_cons, h.1]
      simp [Registry.register]
    · intro s
      rw [List.foldl_cons, h.2.2 s, hget s, List.reverse_cons, List.find?_append]
      rcases cs.reverse.find? (fun c => signatureOf c == s) with _ | d
      · by_cases hcs : (signatureOf c == s) = true <;>
          simp [Option.or, List.find?, hcs]
      · simp [Option.or]

theorem c9_registry (cs : List MultiVectorClass) :
    (Registry.ofList cs).classes = cs ∧
    (Registry.ofList cs).classes.length = cs.length ∧
    ∀ s : List Nat, (Registry.ofList cs).get s =
      cs.reverse.find? (fun c => signatureOf c == s) := by
  have h := registerAll_spec cs ⟨[], []⟩ (by intro p hp; simp at hp)
  have hempty : ∀ s, (Registry.get ⟨[], []⟩ s) = none := by
    intro s
    simp [Registry.get]
  have hc : (Registry.ofList cs).classes = cs := by
    simpa using h.1
  refine ⟨hc, by rw [hc], ?_⟩
  intro s
  have h2 := h.2.2 s
  rw [hempty s] at h2
  rw [show Registry.ofList cs = cs.foldl Registry.register ⟨[], []⟩ from rfl, h2]
  rcases cs.reverse.find? (fun c => signatureOf c == s) with _ | d <;>
    simp [Option.or]

lemma mem_ite_list {x : String} {c : Prop} [Decidable c] {l : List String} :
    (x ∈ if c then l else []) ↔ c ∧ x ∈ l := by
  split_ifs with h <;> simp [h]

lemma mem_singleOpsBase_names (squares : List Int) (reg : Registry)
    (a : MultiVectorClass) {x : String} (hx : x ∈ singleOpsBase squares reg a) :
    x ∈ (["Zero", "One", "Neg", "Automorphism", "Reversal", "Conjugation",
      "Dual"] : List String) := by
  simp only [singleOpsBase, List.mem_append, List.mem_map, List.mem_filter,
    List.mem_cons, List.not_mem_nil, or_false] at hx
  rcases hx with (rfl | rfl) | ⟨ni, ⟨hni, _⟩, rfl⟩
  · decide
  · decide
  · simp only [involutions, List.mem_cons, List.not_mem_nil, or_false] at hni
    rcases hni with rfl | rfl | rfl | rfl | rfl <;> simp

/-- C5, amended: `Inverse` is recorded for a registered class `A`
exactly when `SquaredMagnitude` and `Reversal` are recorded for `A` and
additionally some surviving pair value `B` is scalar-shaped with a
derivable `GeometricProduct(A, B)`. -/
theorem c5_inverse_derivation (squares : List Int) (reg : Registry)
    (a : MultiVectorClass) (_ha : a ∈ reg.classes) :
    "Inverse" ∈ singleOpsFinal squares reg a ↔
      ("SquaredMagnitude" ∈ singleOpsFinal squares reg a ∧
       "Reversal" ∈ singleOpsFinal squares reg a ∧
       ∃ b ∈ pairValues reg, isScalarClass b = true ∧
         "GeometricProduct" ∈ pairOps squares reg a b) := by
  have hnInvBase : "Inverse" ∉ singleOpsBase squares reg a := fun h =>
    absurd (mem_singleOpsBase_names squares reg a h) (by decide)
  have hnInvMid : "Inverse" ∉ singleOpsMid squares reg a := by
    simp only [singleOpsMid, List.mem_append, mem_ite_list]
    rintro (h | ⟨-, h⟩)
    · exact hnInvBase h
    · exact absurd h (by decide)
  have hfin : ∀ x : String, x ∈ singleOpsFinal squares reg a ↔
      (x ∈ singleOpsMid squares reg a ∨
        ((pairValues reg).any (fun b =>
            decide ("GeometricProduct" ∈ pairOps squares reg a b) &&
              isScalarClass b &&
              decide ("Magnitude" ∈ singleOpsMid squares reg a)) = true ∧
          x ∈ (["Signum"] : List String)) ∨
        ((pairValues reg).any (fun b =>
            decide ("GeometricProduct" ∈ pairOps squares reg a b) &&
              isScalarClass b &&
              decide ("SquaredMagnitude" ∈ singleOpsMid squares reg a) &&
              decide ("Reversal" ∈ singleOpsMid squares reg a)) = true ∧
          x ∈ (["Inverse"] : List String))) := by
    intro x
    simp only [singleOpsFinal, List.mem_append, mem_ite_list]
    tauto
  have hSq : "SquaredMagnitude" ∈ singleOpsFinal squares reg a ↔
      "SquaredMagnitude" ∈ singleOpsMid squares reg a := by
    rw [hfin]
    constructor
    · rintro (h | ⟨-, h⟩ | ⟨-, h⟩)
      · exact h
      · exact absurd h (by decide)
      · exact absurd h (by decide)
    · exact fun h => Or.inl h
  have hRev : "Reversal" ∈ singleOpsFinal squares reg a ↔
      "Reversal" ∈ singleOpsMid squares reg a := by
    rw [hfin]
    constructor
    · rintro (h | ⟨-, h⟩ | ⟨-, h⟩)
      · exact h
      · exact absurd h (by decide)
      · exact absurd h (by decide)
    · exact fun h => Or.inl h
  have hInv : "Inverse" ∈ singleOpsFinal squares reg a ↔
      ∃ b ∈ pairValues reg,
        "GeometricProduct" ∈ pairOps squares reg a b ∧ isScalarClass b = true ∧
        "SquaredMagnitude" ∈ singleOpsMid squares reg a ∧
        "Reversal" ∈ singleOpsMid squares reg a := by
    rw [hfin]
    constructor
    · rintro (h | ⟨-, h⟩ | ⟨hc, -⟩)
      · exact absurd h hnInvMid
      · exact absurd h (by decide)
      · rcases List.any_eq_true.mp hc with ⟨b, hb, hp⟩
        simp only [Bool.and_eq_true, decide_eq_true_eq] at hp
        exact ⟨b, hb, hp.1.1.1, hp.1.1.2, hp.1.2, hp.2⟩
    · rintro ⟨b, hb, h1, h2, h3, h4⟩
      refine Or.inr (Or.inr ⟨List.any_eq_true.mpr ⟨b, hb, ?_⟩, by decide⟩)
      simp only [Bool.and_eq_true, decide_eq_true_eq]
      exact ⟨⟨⟨h1, h2⟩, h3⟩, h4⟩
  rw [hInv, hSq, hRev]
  constructor
  · rintro ⟨b, hb, h1, h2, h3, h4⟩
    exact ⟨h3, h4, b, hb, h2, h1⟩
  · rintro ⟨h3, h4, b, hb, h2, h1⟩
    exact ⟨b, hb, h1, h2, h3, h4⟩

/-- C5, witness for the amended statement: a Euclidean two-generator
algebra with a rotor-like class and a scalar class, where `Inverse` is
derived. -/
theorem c5_inverse_derivation_witness :
    let bCl : MultiVectorClass := ⟨"B", [[⟨1, 0⟩, ⟨1, 3⟩]]⟩
    let sCl : MultiVectorClass := ⟨"S1", [[⟨1, 0⟩]]⟩
    let reg := Registry.ofList [bCl, sCl]
    bCl ∈ reg.classes ∧
      ("Inverse" ∈ singleOpsFinal [1, 1] reg bCl ↔
        ("SquaredMagnitude" ∈ singleOpsFinal [1, 1] reg bCl ∧
         "Reversal" ∈ singleOpsFinal [1, 1] reg bCl ∧
         ∃ b ∈ pairValues reg, isScalarClass b = true ∧
           "GeometricProduct" ∈ pairOps [1, 1] reg bCl b)) :=
  ⟨by decide, c5_inverse_derivation [1, 1] _ _ (by decide)⟩

/-- C5, counterexample: in the one-generator algebra with square `0`,
register `A` holding the blades `1, e0` and `S` holding the single
blade parsed from `"e00"` (which collapses to scalar `0` because the
generator squares to zero).  `S` has the scalar signature, so
`ScalarProduct(A, A)` is derivable and `SquaredMagnitude` and
`Reversal` are recorded for `A`; yet `GeometricProduct(A, S)` has no
nonzero term, and no other scalar-shaped class exists, so `Inverse` is
not derived for `A`. -/
theorem c5_counterexample :
    let aCl : MultiVectorClass := ⟨"A", [[⟨1, 0⟩, ⟨1, 1⟩]]⟩
    let sCl : MultiVectorClass := ⟨"S", [[⟨0, 0⟩]]⟩
    let reg := Registry.ofList [aCl, sCl]
    parse [0] "e00" = some ⟨0, 0⟩ ∧
    aCl ∈ reg.classes ∧
    "SquaredMagnitude" ∈ singleOpsFinal [0] reg aCl ∧
    "Reversal" ∈ singleOpsFinal [0] reg aCl ∧
    "Inverse" ∉ singleOpsFinal [0] reg aCl := by
  decide

/-- C2, amended: six of the seven named products are the subsets of the
full geometric-product table selected by their grade predicates (so all
their terms are table terms); `RegressiveProduct` is instead the
term-wise dual of the `OuterProduct` subset; and for any fixed factor
grades `(r, s)`, the union of the six products' terms with those factor
grades is exactly the set of nonzero geometric-product terms with those
factor grades. -/
theorem c2_seven_products (squares : List Int) :
    (products squares).map (fun pr => pr.1) =
      ["GeometricProduct", "RegressiveProduct", "OuterProduct",
       "InnerProduct", "LeftContraction", "RightContraction",
       "ScalarProduct"] ∧
    (∀ pr ∈ products squares, pr.1 ≠ "RegressiveProduct" →
      ∀ t ∈ pr.2, t ∈ productNew squares (basisList squares) (basisList squares)) ∧
    ((products squares).getD 1 ("", [])).2 =
      dualTerms squares
        (projected (productNew squares (basisList squares) (basisList squares))
          (fun r s t => t == r + s)) ∧
    (∀ r s : Nat, ∀ t : ProductTerm,
      ((∃ pr ∈ products squares, pr.1 ≠ "RegressiveProduct" ∧ t ∈ pr.2) ∧
        grade t.factorA = r ∧ grade t.factorB = s) ↔
      (t ∈ productNew squares (basisList squares) (basisList squares) ∧
        grade t.factorA = r ∧ grade t.factorB = s)) := by
  have hsub : ∀ pr ∈ products squares, pr.1 ≠ "RegressiveProduct" →
      ∀ t ∈ pr.2,
        t ∈ productNew squares (basisList squares) (basisList squares) := by
    intro pr hpr hname t ht
    simp only [products, List.mem_cons, List.not_mem_nil, or_false] at hpr
    rcases hpr with rfl | rfl | rfl | rfl | rfl | rfl | rfl
    · exact ht
    · exact absurd rfl hname
    all_goals exact ((List.mem_filter.mp ht).1)
  refine ⟨by simp [products], hsub, rfl, ?_⟩
  intro r s t
  constructor
  · rintro ⟨⟨pr, hpr, hname, ht⟩, hr, hs⟩
    exact ⟨hsub pr hpr hname t ht, hr, hs⟩
  · rintro ⟨ht, hr, hs⟩
    refine ⟨⟨("GeometricProduct",
      productNew squares (basisList squares) (basisList squares)), ?_,
      by simp, ht⟩, hr, hs⟩
    simp [products]

/-! Bit-set infrastructure. -/

theorem mem_bset {x i : Nat} : i ∈ bset x ↔ i < 16 ∧ x.testBit i = true := by
  simp [bset, Finset.mem_filter, Finset.mem_range, and_comm]

theorem popCount_eq_card (x : Nat) : popCount x = (bset x).card := by
  rw [popCount, componentBits, Finset.card_def, bset, Finset.filter_val,
    Finset.range_val, Multiset.range, Multiset.filter_coe, Multiset.coe_card]
  congr 1
  apply List.filter_congr
  intro i _
  exact (Bool.decide_eq_true).symm

theorem bset_zero : bset 0 = ∅ := by
  decide

theorem bset_land (x y : Nat) : bset (x &&& y) = bset x ∩ bset y := by
  ext i
  simp only [mem_bset, Finset.mem_inter, Nat.testBit_and, Bool.and_eq_true]
  tauto

theorem bset_lor (x y : Nat) : bset (x ||| y) = bset x ∪ bset y := by
  ext i
  simp only [mem_bset, Finset.mem_union, Nat.testBit_or, Bool.or_eq_true]
  tauto

theorem bset_xor (x y : Nat) : bset (x ^^^ y) = symmDiff (bset x) (bset y) := by
  ext i
  simp only [mem_bset, Finset.mem_symmDiff, Nat.testBit_xor]
  cases hx : x.testBit i <;> cases hy : y.testBit i <;> simp

theorem bset_subset_range {n E : Nat} (h : E < 2 ^ n) :
    bset E ⊆ Finset.range n := by
  intro i hi
  rcases mem_bset.mp hi with ⟨-, hb⟩
  have h1 := Nat.testBit_implies_ge hb
  rw [Finset.mem_range]
  by_contra hc
  push_neg at hc
  exact absurd h (by
    have : (2 : Nat) ^ n ≤ 2 ^ i := Nat.pow_le_pow_right (by omega) hc
    omega)

theorem two_pow_sub_one_sub {n E : Nat} (h : E < 2 ^ n) :
    2 ^ n - 1 - E = (2 ^ n - 1) ^^^ E := by
  induction n generalizing E with
  | zero =>
    have hE : E = 0 := by omega
    subst hE
    decide
  | succ n ih =>
    have hp : (2 : Nat) ^ (n + 1) = 2 * 2 ^ n := by
      rw [pow_succ]
      ring
    have h2 : (0 : Nat) < 2 ^ n := Nat.pos_pow_of_pos n (by omega)
    have hE2 : E / 2 < 2 ^ n := by omega
    have hmask : (2 : Nat) ^ (n + 1) - 1 = Nat.bit true (2 ^ n - 1) := by
      rw [Nat.bit_val]
      simp only [Bool.toNat_true]
      omega
    have hE : E = Nat.bit (decide (E % 2 = 1)) (E / 2) := by
      conv_lhs => rw [← Nat.bit_decide_mod_two_eq_one_shiftRight_one E]
      rw [Nat.shiftRight_one]
    have hx : (2 ^ (n + 1) - 1) ^^^ E =
        Nat.bit (!decide (E % 2 = 1)) ((2 ^ n - 1) ^^^ (E / 2)) := by
      conv_lhs => rw [hmask, hE]
      rw [Nat.xor_bit]
      rcases Nat.mod_two_eq_zero_or_one E with h3 | h3 <;> simp [h3]
    rw [hx, ← ih hE2, Nat.bit_val]
    rcases Nat.mod_two_eq_zero_or_one E with h3 | h3 <;> simp [h3] <;> omega

theorem testBit_two_pow_sub_one_sub {n E i : Nat} (h : E < 2 ^ n) :
    (2 ^ n - 1 - E).testBit i = (decide (i < n) && !E.testBit i) := by
  rw [two_pow_sub_one_sub h, Nat.testBit_xor, Nat.testBit_two_pow_sub_one]
  by_cases hd : i < n
  · simp [hd]
  · have hb : E.testBit i = false := by
      apply Nat.testBit_lt_two_pow
      have : (2 : Nat) ^ n ≤ 2 ^ i := Nat.pow_le_pow_right (by omega) (by omega)
      omega
    simp [hd, hb]

theorem land_compl_self {n E : Nat} (h : E < 2 ^ n) :
    E &&& (2 ^ n - 1 - E) = 0 := by
  apply Nat.eq_of_testBit_eq
  intro i
  rw [Nat.testBit_and, testBit_two_pow_sub_one_sub h, Nat.zero_testBit]
  cases hb : E.testBit i <;> simp [hb]

theorem bset_compl {n E : Nat} (hn : n ≤ 16) (h : E < 2 ^ n) :
    bset (2 ^ n - 1 - E) = Finset.range n \ bset E := by
  ext i
  simp only [mem_bset, testBit_two_pow_sub_one_sub h, Finset.mem_sdiff,
    Finset.mem_range, Bool.and_eq_true, Bool.not_eq_true', decide_eq_true_eq]
  constructor
  · rintro ⟨-, hin, hb⟩
    exact ⟨hin, fun hc => by rw [hc.2] at hb; cases hb⟩
  · rintro ⟨hin, hb⟩
    refine ⟨by omega, hin, ?_⟩
    by_cases hbit : E.testBit i = true
    · exact absurd ⟨by omega, hbit⟩ hb
    · simpa using hbit

/-! Parity helpers. -/

theorem neg_one_pow_congr {a b : Nat} (h : a % 2 = b % 2) :
    ((-1 : Int)) ^ a = (-1) ^ b := by
  rcases Nat.even_or_odd a with ha | ha
  · have hb : Even b := by
      rw [Nat.even_iff] at ha ⊢
      omega
    rw [Even.neg_one_pow ha, Even.neg_one_pow hb]
  · have hb : Odd b := by
      rw [Nat.odd_iff] at ha ⊢
      omega
    rw [Odd.neg_one_pow ha, Odd.neg_one_pow hb]

theorem ite_sign_eq_neg_one_pow (c : Nat) :
    (if c % 2 = 0 then (1 : Int) else -1) = (-1) ^ c := by
  rcases Nat.even_or_odd c with hc | hc
  · rw [if_pos (Nat.even_iff.mp hc), Even.neg_one_pow hc]
  · rw [if_neg (by rw [Nat.odd_iff] at hc; omega), Odd.neg_one_pow hc]

theorem card_symmDiff_mod_two (s t : Finset ℕ) :
    (symmDiff s t).card % 2 = (s.card + t.card) % 2 := by
  have h1 : symmDiff s t = (s ∪ t) \ (s ∩ t) := by
    rw [symmDiff_eq_sup_sdiff_inf]
    rfl
  have h2 : (s ∩ t) ⊆ (s ∪ t) :=
    Finset.inter_subset_left.trans Finset.subset_union_left
  have h3 : (symmDiff s t).card = (s ∪ t).card - (s ∩ t).card := by
    rw [h1, Finset.card_sdiff h2]
  have h4 := Finset.card_union_add_card_inter s t
  have h5 : (s ∩ t).card ≤ (s ∪ t).card := Finset.card_le_card h2
  omega

theorem epsilon_cross (A B : Finset ℕ) (h : A ∩ B = ∅) :
    epsilonCount A B + epsilonCount B A = A.card * B.card := by
  unfold epsilonCount
  simp only [Finset.card_filter]
  have hswap : (∑ j ∈ B, ∑ i ∈ A, if i < j then 1 else 0) =
      ∑ i ∈ A, ∑ j ∈ B, if i < j then 1 else 0 := Finset.sum_comm
  rw [hswap, ← Finset.sum_add_distrib]
  have hpt : ∀ i ∈ A, ((∑ j ∈ B, if j < i then 1 else 0) +
      ∑ j ∈ B, if i < j then 1 else 0) = B.card := by
    intro i hi
    rw [← Finset.sum_add_distrib, Finset.card_eq_sum_ones]
    apply Finset.sum_congr rfl
    intro j hj
    have hij : i ≠ j := by
      intro hij
      rw [hij] at hi
      have hmem := Finset.mem_inter.mpr ⟨hi, hj⟩
      rw [h] at hmem
      exact absurd hmem (Finset.not_mem_empty j)
    rcases lt_trichotomy j i with h1 | h1 | h1
    · rw [if_pos h1, if_neg (by omega)]
    · exact absurd h1.symm hij
    · rw [if_neg (by omega), if_pos h1]
  rw [Finset.sum_congr rfl hpt, Finset.sum_const, smul_eq_mul, mul_comm]

theorem testBit_high_false {x n i : Nat} (hx : x < 2 ^ n) (h : n ≤ i) :
    x.testBit i = false := by
  apply Nat.testBit_lt_two_pow
  have : (2 : Nat) ^ n ≤ 2 ^ i := Nat.pow_le_pow_right (by omega) h
  omega

theorem shiftRight_shiftLeft_testBit (a k i : Nat) :
    ((a >>> k) <<< k).testBit i = (decide (k ≤ i) && a.testBit i) := by
  rw [Nat.testBit_shiftLeft, Nat.testBit_shiftRight]
  by_cases h : k ≤ i
  · simp [h, Nat.add_sub_cancel' h]
  · simp [h]

theorem bset_mod_two_pow (x k : Nat) :
    bset (x % 2 ^ k) = (bset x).filter (fun j => j < k) := by
  ext i
  simp only [mem_bset, Finset.mem_filter, Nat.testBit_mod_two_pow,
    Bool.and_eq_true, decide_eq_true_eq]
  tauto

theorem filter_symmDiff_lt (B A2 : Finset ℕ) (i : Nat) :
    (symmDiff B A2).filter (fun j => j < i) =
      symmDiff (B.filter (fun j => j < i)) (A2.filter (fun j => j < i)) := by
  ext j
  simp only [Finset.mem_filter, Finset.mem_symmDiff]
  tauto

theorem commAccum_succ (a b k : Nat) :
    commAccum a b (k + 1) =
      if a.testBit k then commStep (commAccum a b k) k
      else commAccum a b k := by
  unfold commAccum
  rw [List.range_succ, List.filter_append, List.foldl_append]
  cases h : a.testBit k <;>
    simp [List.filter_cons, List.filter_nil, h]

theorem commutations_eq_accum (a b : Nat) :
    commutations a b = (commAccum a b 16).1 :=
  rfl

theorem commAccum_spec (a b : Nat) (ha : a < 2 ^ 15) (_hb : b < 2 ^ 16) :
    ∀ k, k ≤ 16 →
      (commAccum a b k).2.1 = (a >>> k) <<< k ∧
      (commAccum a b k).2.2 = b ^^^ (a % 2 ^ k) ∧
      (commAccum a b k).1 =
        ∑ i ∈ (bset a).filter (fun i => i < k),
          (((bset a).filter (fun j => i < j)).card +
            ((symmDiff (bset b) ((bset a).filter (fun j => j < i))).filter
              (fun j => j < i)).card) := by
  intro k
  induction k with
  | zero =>
    intro _
    refine ⟨?_, ?_, ?_⟩
    · show a = (a >>> 0) <<< 0
      simp
    · show b = b ^^^ (a % 2 ^ 0)
      simp [Nat.mod_one]
    · show (0 : Nat) = _
      rw [show (bset a).filter (fun i => i < 0) = ∅ from by ext i; simp]
      simp
  | succ k ih =>
    intro hk1
    obtain ⟨ih1, ih2, ih3⟩ := ih (by omega)
    cases htb : a.testBit k with
    | false =>
      rw [commAccum_succ, htb]
      simp only [Bool.false_eq_true, if_false]
      refine ⟨?_, ?_, ?_⟩
      · rw [ih1]
        apply Nat.eq_of_testBit_eq
        intro i
        rw [shiftRight_shiftLeft_testBit, shiftRight_shiftLeft_testBit]
        by_cases hik : i = k
        · subst hik
          simp [htb]
        · by_cases hki : k ≤ i
          · simp [hki, show k + 1 ≤ i from by omega]
          · simp [hki, show ¬ (k + 1 ≤ i) from by omega]
      · rw [ih2]
        congr 1
        apply Nat.eq_of_testBit_eq
        intro i
        rw [Nat.testBit_mod_two_pow, Nat.testBit_mod_two_pow]
        by_cases hik : i = k
        · subst hik
          simp [htb]
        · by_cases h1 : i < k
          · simp [h1, show i < k + 1 from by omega]
          · simp [h1, show ¬ (i < k + 1) from by omega]
      · rw [ih3]
        congr 1
        ext i
        simp only [Finset.mem_filter, mem_bset]
        constructor
        · rintro ⟨⟨hi16, hbit⟩, hlt⟩
          exact ⟨⟨hi16, hbit⟩, by omega⟩
        · rintro ⟨⟨hi16, hbit⟩, hlt⟩
          by_cases hik : i = k
          · subst hik
            rw [htb] at hbit
            cases hbit
          · exact ⟨⟨hi16, hbit⟩, by omega⟩
    | true =>
      have hk14 : k ≤ 14 := by
        have h1 := Nat.testBit_implies_ge htb
        by_contra hc
        push_neg at hc
        have h2 : (2 : Nat) ^ 15 ≤ 2 ^ k := Nat.pow_le_pow_right (by omega) (by omega)
        omega
      rw [commAccum_succ, htb, if_pos rfl]
      refine ⟨?_, ?_, ?_⟩
      · show ((commAccum a b k).2.1 &&& not16 (1 <<< k)) = _
        rw [ih1]
        apply Nat.eq_of_testBit_eq
        intro i
        rw [Nat.testBit_and, shiftRight_shiftLeft_testBit,
          shiftRight_shiftLeft_testBit]
        have hnot : (not16 (1 <<< k)).testBit i =
            ((decide (k = i)).xor (decide (i < 16))) := by
          rw [not16, Nat.testBit_xor, Nat.one_shiftLeft, Nat.testBit_two_pow,
            show (65535 : Nat) = 2 ^ 16 - 1 from rfl,
            Nat.testBit_two_pow_sub_one]
        rw [hnot]
        by_cases hi16 : i < 16
        · by_cases hik : i = k
          · subst hik
            simp [hi16]
          · by_cases hki : k ≤ i
            · simp [hki, show k + 1 ≤ i from by omega, hi16,
                show ¬ k = i from fun h => hik h.symm]
            · simp [hki, show ¬ (k + 1 ≤ i) from by omega]
        · have hbit : a.testBit i = false :=
            testBit_high_false ha (by omega)
          simp [hbit]
      · show ((commAccum a b k).2.2 ^^^ (1 <<< k)) = _
        rw [ih2, Nat.xor_assoc]
        congr 1
        apply Nat.eq_of_testBit_eq
        intro i
        rw [Nat.testBit_xor, Nat.testBit_mod_two_pow, Nat.testBit_mod_two_pow,
          Nat.one_shiftLeft, Nat.testBit_two_pow]
        by_cases hik : i = k
        · subst hik
          simp [htb]
        · by_cases h1 : i < k
          · simp [h1, show i < k + 1 from by omega,
              show ¬ k = i from fun h => hik h.symm]
          · simp [h1, show ¬ (i < k + 1) from by omega,
              show ¬ k = i from fun h => hik h.symm]
      · show ((commAccum a b k).1 +
            popCount (((commAccum a b k).2.1 &&&
                ((65535 <<< ((k + 1) % 16)) &&& 65535)) |||
              ((commAccum a b k).2.2 &&& ((1 <<< k) - 1)))) = _
        rw [ih1, ih2, ih3, popCount_eq_card, bset_lor]
        have hAset : bset (((a >>> k) <<< k) &&&
            ((65535 <<< ((k + 1) % 16)) &&& 65535)) =
            (bset a).filter (fun j => k < j) := by
          rw [Nat.mod_eq_of_lt (by omega : k + 1 < 16)]
          ext i
          simp only [mem_bset, Finset.mem_filter]
          rw [Nat.testBit_and, shiftRight_shiftLeft_testBit, Nat.testBit_and,
            Nat.testBit_shiftLeft,
            show (65535 : Nat) = 2 ^ 16 - 1 from rfl,
            Nat.testBit_two_pow_sub_one, Nat.testBit_two_pow_sub_one]
          simp only [Bool.and_eq_true, decide_eq_true_eq]
          constructor
          · rintro ⟨hi16, ⟨-, hbit⟩, ⟨hk1, -⟩, -⟩
            exact ⟨⟨hi16, hbit⟩, by omega⟩
          · rintro ⟨⟨hi16, hbit⟩, hki⟩
            exact ⟨hi16, ⟨by omega, hbit⟩, ⟨by omega, by omega⟩, hi16⟩
        have hBset : bset ((b ^^^ (a % 2 ^ k)) &&& ((1 <<< k) - 1)) =
            (symmDiff (bset b) ((bset a).filter (fun j => j < k))).filter
              (fun j => j < k) := by
          rw [Nat.one_shiftLeft, Nat.and_pow_two_sub_one_eq_mod,
            bset_mod_two_pow, bset_xor, bset_mod_two_pow]
        rw [hAset, hBset, Finset.card_union_of_disjoint]
        · have hins : (bset a).filter (fun i => i < k + 1) =
              insert k ((bset a).filter (fun i => i < k)) := by
            ext i
            simp only [Finset.mem_filter, Finset.mem_insert, mem_bset]
            constructor
            · rintro ⟨⟨hi16, hbit⟩, hlt⟩
              by_cases hik : i = k
              · exact Or.inl hik
              · exact Or.inr ⟨⟨hi16, hbit⟩, by omega⟩
            · rintro (rfl | ⟨⟨hi16, hbit⟩, hlt⟩)
              · exact ⟨⟨by omega, htb⟩, by omega⟩
              · exact ⟨⟨hi16, hbit⟩, by omega⟩
          rw [hins, Finset.sum_insert (by simp)]
          omega
        · rw [Finset.disjoint_left]
          intro i hi1 hi2
          simp only [Finset.mem_filter] at hi1 hi2
          omega

theorem commutations_parity (a b : Nat) (ha : a < 2 ^ 15) (hb : b < 2 ^ 16) :
    commutations a b % 2 = epsilonCount (bset a) (bset b) % 2 := by
  have hspec := (commAccum_spec a b ha hb 16 (le_refl 16)).2.2
  have hall : (bset a).filter (fun i => i < 16) = bset a := by
    ext i
    simp only [Finset.mem_filter, mem_bset]
    constructor
    · exact fun h => h.1
    · exact fun h => ⟨h, h.1⟩
  rw [commutations_eq_accum, hspec, hall, Finset.sum_add_distrib]
  have hsym : ∀ i ∈ bset a,
      ((symmDiff (bset b) ((bset a).filter (fun j => j < i))).filter
        (fun j => j < i)).card % 2 =
      (((bset b).filter (fun j => j < i)).card +
        ((bset a).filter (fun j => j < i)).card) % 2 := by
    intro i _
    rw [filter_symmDiff_lt, card_symmDiff_mod_two, Finset.filter_filter]
    simp only [and_self]
  have hS2 : (∑ i ∈ bset a,
      ((symmDiff (bset b) ((bset a).filter (fun j => j < i))).filter
        (fun j => j < i)).card) % 2 =
      ((∑ i ∈ bset a, ((bset b).filter (fun j => j < i)).card) +
        (∑ i ∈ bset a, ((bset a).filter (fun j => j < i)).card)) % 2 := by
    rw [Finset.sum_nat_mod, Finset.sum_congr rfl hsym, ← Finset.sum_nat_mod,
      Finset.sum_add_distrib]
  have herase : ∀ i ∈ bset a,
      ((bset a).filter (fun j => i < j)).card +
        ((bset a).filter (fun j => j < i)).card = (bset a).card - 1 := by
    intro i hi
    have hu : (bset a).filter (fun j => i < j) ∪
        (bset a).filter (fun j => j < i) = (bset a).erase i := by
      ext j
      simp only [Finset.mem_union, Finset.mem_filter, Finset.mem_erase]
      constructor
      · rintro (⟨hj, h1⟩ | ⟨hj, h1⟩) <;> exact ⟨by omega, hj⟩
      · rintro ⟨hne, hj⟩
        rcases lt_trichotomy j i with h1 | h1 | h1
        · exact Or.inr ⟨hj, h1⟩
        · exact absurd h1 hne
        · exact Or.inl ⟨hj, h1⟩
    have hd : Disjoint ((bset a).filter (fun j => i < j))
        ((bset a).filter (fun j => j < i)) := by
      rw [Finset.disjoint_left]
      intro j h1 h2
      simp only [Finset.mem_filter] at h1 h2
      omega
    have hcard := Finset.card_union_of_disjoint hd
    rw [hu, Finset.card_erase_of_mem hi] at hcard
    omega
  have hS14 : (∑ i ∈ bset a, ((bset a).filter (fun j => i < j)).card) +
      (∑ i ∈ bset a, ((bset a).filter (fun j => j < i)).card) =
      (bset a).card * ((bset a).card - 1) := by
    rw [← Finset.sum_add_distrib, Finset.sum_congr rfl herase,
      Finset.sum_const, smul_eq_mul]
  have heven : ((bset a).card * ((bset a).card - 1)) % 2 = 0 := by
    rcases Nat.even_or_odd (bset a).card with h1 | h1
    · exact Nat.even_iff.mp (h1.mul_right _)
    · have h2 : Even ((bset a).card - 1) := Nat.Odd.sub_odd h1 odd_one
      exact Nat.even_iff.mp (h2.mul_left _)
  unfold epsilonCount
  omega

theorem dual_eq (squares : List Int) (e : BasisElement)
    (he : e.index < 2 ^ squares.length) :
    dual squares e =
      ⟨e.scalar * (e.scalar * e.scalar *
        (if commutations e.index (2 ^ squares.length - 1 - e.index) % 2 = 0
         then 1 else -1)),
       2 ^ squares.length - 1 - e.index⟩ := by
  have hbs : basisSize squares = 2 ^ squares.length := by
    rw [basisSize, Nat.one_shiftLeft]
  unfold dual
  rw [hbs, product_disjoint _ _ _ (land_compl_self he)]

theorem sign_pm (c : Nat) :
    (if c % 2 = 0 then (1 : Int) else -1) = 1 ∨
      (if c % 2 = 0 then (1 : Int) else -1) = -1 := by
  by_cases h : c % 2 = 0
  · exact Or.inl (if_pos h)
  · exact Or.inr (if_neg h)

theorem sign_cube {s : Int} (hs : s = 1 ∨ s = -1) (t : Int) :
    s * (s * s * t) = s * t := by
  rcases hs with rfl | rfl <;> ring

/-- C7, amended: for at most 15 generators, the double dual preserves
the index and scales by the grade-dependent sign
`(-1) ^ (g * (n - g))`. -/
theorem c7_double_dual (squares : List Int) (hn : squares.length ≤ 15)
    (e : BasisElement) (he : e.index < 2 ^ squares.length)
    (hs : e.scalar = 1 ∨ e.scalar = -1) :
    dual squares (dual squares e) =
      ⟨(-1) ^ (grade e * (squares.length - grade e)) * e.scalar, e.index⟩ := by
  have hpow : (0 : Nat) < 2 ^ squares.length := Nat.pos_pow_of_pos _ (by omega)
  have hCn : 2 ^ squares.length - 1 - e.index < 2 ^ squares.length := by omega
  have hCE : 2 ^ squares.length - 1 -
      (2 ^ squares.length - 1 - e.index) = e.index := by omega
  rw [dual_eq squares e he, dual_eq squares _ hCn]
  simp only [hCE]
  have hmono : (2 : Nat) ^ squares.length ≤ 2 ^ 15 :=
    Nat.pow_le_pow_right (by omega) hn
  have hE15 : e.index < 2 ^ 15 := by omega
  have hC15 : 2 ^ squares.length - 1 - e.index < 2 ^ 15 := by omega
  have hE16 : e.index < 2 ^ 16 := by
    have : (2 : Nat) ^ 15 ≤ 2 ^ 16 := by norm_num
    omega
  have hC16 : 2 ^ squares.length - 1 - e.index < 2 ^ 16 := by
    have : (2 : Nat) ^ 15 ≤ 2 ^ 16 := by norm_num
    omega
  have hp1 := commutations_parity e.index
    (2 ^ squares.length - 1 - e.index) hE15 hC16
  have hp2 := commutations_parity (2 ^ squares.length - 1 - e.index)
    e.index hC15 hE16
  have hdisj : bset e.index ∩ bset (2 ^ squares.length - 1 - e.index) = ∅ := by
    rw [← bset_land, land_compl_self he, bset_zero]
  have hcross := epsilon_cross _ _ hdisj
  have hcardE : (bset e.index).card = grade e :=
    (popCount_eq_card e.index).symm
  have hcardC : (bset (2 ^ squares.length - 1 - e.index)).card =
      squares.length - grade e := by
    rw [bset_compl (by omega) he, Finset.card_sdiff (bset_subset_range he),
      Finset.card_range, hcardE]
  have hpar : (commutations e.index (2 ^ squares.length - 1 - e.index) +
      commutations (2 ^ squares.length - 1 - e.index) e.index) % 2 =
      (grade e * (squares.length - grade e)) % 2 := by
    rw [hcardE, hcardC] at hcross
    omega
  congr 1
  rw [sign_cube hs, ite_sign_eq_neg_one_pow, ite_sign_eq_neg_one_pow]
  have hpm : (-1 : Int) ^
      commutations e.index (2 ^ squares.length - 1 - e.index) = 1 ∨
      (-1 : Int) ^
      commutations e.index (2 ^ squares.length - 1 - e.index) = -1 := by
    rcases Nat.even_or_odd (commutations e.index
        (2 ^ squares.length - 1 - e.index)) with h2 | h2
    · exact Or.inl (Even.neg_one_pow h2)
    · exact Or.inr (Odd.neg_one_pow h2)
  have hS1 : e.scalar * (-1 : Int) ^
      commutations e.index (2 ^ squares.length - 1 - e.index) = 1 ∨
      e.scalar * (-1 : Int) ^
      commutations e.index (2 ^ squares.length - 1 - e.index) = -1 := by
    rcases hs with h1 | h1 <;> rcases hpm with h2 | h2 <;> rw [h1, h2] <;> decide
  rw [sign_cube hS1, mul_assoc, ← pow_add, neg_one_pow_congr hpar, mul_comm]

/-- C7, witness for the amended statement in the Euclidean 3-generator
algebra at the blade `e02`. -/
theorem c7_double_dual_witness :
    ([1, 1, 1] : List Int).length ≤ 15 ∧
    (⟨1, 5⟩ : BasisElement).index < 2 ^ ([1, 1, 1] : List Int).length ∧
    ((⟨1, 5⟩ : BasisElement).scalar = 1 ∨
      (⟨1, 5⟩ : BasisElement).scalar = -1) ∧
    dual [1, 1, 1] (dual [1, 1, 1] ⟨1, 5⟩) =
      ⟨(-1) ^ (grade ⟨1, 5⟩ *
          (([1, 1, 1] : List Int).length - grade ⟨1, 5⟩)) *
        (⟨1, 5⟩ : BasisElement).scalar, (⟨1, 5⟩ : BasisElement).index⟩ :=
  ⟨by decide, by decide, Or.inl rfl,
    c7_double_dual [1, 1, 1] (by decide) ⟨1, 5⟩ (by decide) (Or.inl rfl)⟩

/-! Trailing-zeros and comparison lemmas. -/

theorem mem_componentBits {x i : Nat} :
    i ∈ componentBits x ↔ i < 16 ∧ x.testBit i = true := by
  simp [componentBits, List.mem_filter, List.mem_range]

theorem componentBits_sorted (x : Nat) :
    (componentBits x).Pairwise (fun i j => i < j) :=
  (List.pairwise_lt_range 16).sublist (List.filter_sublist _)

theorem componentBits_eq_nil {x : Nat} (hx : x < 2 ^ 16) :
    componentBits x = [] ↔ x = 0 := by
  constructor
  · intro h
    apply Nat.eq_of_testBit_eq
    intro i
    rw [Nat.zero_testBit]
    by_cases hi : i < 16
    · by_contra hb
      have hmem : i ∈ componentBits x :=
        mem_componentBits.mpr ⟨hi, by simpa using hb⟩
      rw [h] at hmem
      exact absurd hmem (List.not_mem_nil i)
    · exact testBit_high_false hx (by omega)
  · intro h
    subst h
    decide

theorem tz16_spec {x : Nat} (hx : x < 2 ^ 16) (hne : x ≠ 0) :
    trailingZeros16 x < 16 ∧ x.testBit (trailingZeros16 x) = true ∧
      ∀ j < trailingZeros16 x, x.testBit j = false := by
  rcases h : componentBits x with _ | ⟨i, t⟩
  · exact absurd ((componentBits_eq_nil hx).mp h) hne
  · have htz : trailingZeros16 x = i := by
      rw [trailingZeros16, h]
      rfl
    have hmem : i ∈ componentBits x := by
      rw [h]
      exact List.mem_cons_self i t
    rcases mem_componentBits.mp hmem with ⟨hi16, hbit⟩
    refine ⟨by omega, by rw [htz]; exact hbit, ?_⟩
    intro j hj
    rw [htz] at hj
    by_contra hb
    have hmemj : j ∈ componentBits x :=
      mem_componentBits.mpr ⟨by omega, by simpa using hb⟩
    have hsorted := componentBits_sorted x
    rw [h] at hsorted hmemj
    rw [List.mem_cons] at hmemj
    rcases hmemj with rfl | hmemj
    · omega
    · have := (List.pairwise_cons.mp hsorted).1 j hmemj
      omega

theorem tz16_eq {x d : Nat} (hx : x < 2 ^ 16) (hbit : x.testBit d = true)
    (hmin : ∀ j < d, x.testBit j = false) : trailingZeros16 x = d := by
  have hne : x ≠ 0 := by
    intro h
    subst h
    rw [Nat.zero_testBit] at hbit
    cases hbit
  obtain ⟨h1, h2, h3⟩ := tz16_spec hx hne
  rcases lt_trichotomy (trailingZeros16 x) d with h | h | h
  · rw [hmin _ h] at h2
    cases h2
  · exact h
  · rw [h3 _ h] at hbit
    cases hbit

theorem tz16_gt {x d : Nat} (hx : x < 2 ^ 16) (hd : d < 16)
    (hmin : ∀ j ≤ d, x.testBit j = false) : d < trailingZeros16 x := by
  by_cases hne : x = 0
  · subst hne
    have : trailingZeros16 0 = 16 := by decide
    omega
  · obtain ⟨h1, h2, h3⟩ := tz16_spec hx hne
    by_contra hc
    push_neg at hc
    rw [hmin _ hc] at h2
    cases h2

theorem testBit_land_not16 {x y j : Nat} (hj : j < 16) :
    (x &&& not16 y).testBit j = (x.testBit j && !y.testBit j) := by
  rw [Nat.testBit_and, not16, Nat.testBit_xor,
    show (65535 : Nat) = 2 ^ 16 - 1 from rfl, Nat.testBit_two_pow_sub_one]
  simp [hj]

theorem testBit_land_not16_high {x y j : Nat} (hx : x < 2 ^ 16)
    (hj : 16 ≤ j) : (x &&& not16 y).testBit j = false := by
  rw [Nat.testBit_and, testBit_high_false hx hj]
  rfl

theorem land_not16_lt {x y : Nat} (hx : x < 2 ^ 16) :
    x &&& not16 y < 2 ^ 16 :=
  Nat.lt_of_le_of_lt Nat.and_le_left hx

theorem land_not16_self {x : Nat} (hx : x < 2 ^ 16) :
    x &&& not16 x = 0 := by
  apply Nat.eq_of_testBit_eq
  intro j
  rw [Nat.zero_testBit]
  by_cases hj : j < 16
  · rw [testBit_land_not16 hj]
    cases h : x.testBit j <;> simp [h]
  · exact testBit_land_not16_high hx (by omega)

theorem diff_spec {x y : Nat} (hx : x < 2 ^ 16) (hy : y < 2 ^ 16)
    (hne : x ≠ y) :
    trailingZeros16 (x ^^^ y) < 16 ∧
    ¬ x.testBit (trailingZeros16 (x ^^^ y)) =
        y.testBit (trailingZeros16 (x ^^^ y)) ∧
    ∀ j < trailingZeros16 (x ^^^ y), x.testBit j = y.testBit j := by
  have hxor_ne : x ^^^ y ≠ 0 := by
    rw [Ne, Nat.xor_eq_zero]
    exact hne
  have hxor_lt : x ^^^ y < 2 ^ 16 := Nat.xor_lt_two_pow hx hy
  obtain ⟨h1, h2, h3⟩ := tz16_spec hxor_lt hxor_ne
  rw [Nat.testBit_xor] at h2
  refine ⟨h1, ?_, ?_⟩
  · intro hEq
    rw [hEq] at h2
    cases hb : y.testBit (trailingZeros16 (x ^^^ y)) <;>
      rw [hb] at h2 <;> simp at h2
  · intro j hj
    have := h3 j hj
    rw [Nat.testBit_xor] at this
    cases hbx : x.testBit j <;> cases hby : y.testBit j <;>
      rw [hbx, hby] at this <;> simp_all

theorem tz_sdiff_of_bit {x y : Nat} (hx : x < 2 ^ 16) (hy : y < 2 ^ 16)
    (hne : x ≠ y) (hbx : x.testBit (trailingZeros16 (x ^^^ y)) = true) :
    trailingZeros16 (x &&& not16 y) = trailingZeros16 (x ^^^ y) ∧
    trailingZeros16 (x ^^^ y) < trailingZeros16 (y &&& not16 x) := by
  obtain ⟨hd16, hdne, hdeq⟩ := diff_spec hx hy hne
  have hby : y.testBit (trailingZeros16 (x ^^^ y)) = false := by
    cases hb : y.testBit (trailingZeros16 (x ^^^ y))
    · rfl
    · rw [hbx, hb] at hdne
      exact absurd rfl hdne
  constructor
  · apply tz16_eq (land_not16_lt hx)
    · rw [testBit_land_not16 hd16, hbx, hby]
      rfl
    · intro j hj
      rw [testBit_land_not16 (by omega), hdeq j hj]
      cases hb : y.testBit j <;> simp [hb]
  · apply tz16_gt (land_not16_lt hy) hd16
    intro j hj
    rcases Nat.lt_or_ge j (trailingZeros16 (x ^^^ y)) with h | h
    · rw [testBit_land_not16 (by omega), hdeq j h]
      cases hb : y.testBit j <;> simp [hb]
    · have hjeq : j = trailingZeros16 (x ^^^ y) := by omega
      rw [testBit_land_not16 (by omega), hjeq, hby]
      rfl

theorem cmpBE_lt_or_gt (a b : BasisElement) :
    cmpBE a b = .lt ∨ cmpBE a b = .gt := by
  unfold cmpBE
  split_ifs
  · exact Or.inl rfl
  · exact Or.inr rfl
  · exact Or.inl rfl
  · exact Or.inr rfl


theorem cmpBE_never_eq (a b : BasisElement) : cmpBE a b ≠ .eq := by
  rcases cmpBE_lt_or_gt a b with h | h <;> rw [h] <;> decide

theorem cmpBE_scalar_free (a b : BasisElement) (s t : Int) :
    cmpBE ⟨s, a.index⟩ ⟨t, b.index⟩ = cmpBE a b :=
  rfl

theorem cmpBE_gt_of_index_eq {a b : BasisElement} (hx : a.index < 2 ^ 16)
    (h : a.index = b.index) : cmpBE a b = .gt := by
  have hg : grade a = grade b := by
    unfold grade
    rw [h]
  unfold cmpBE
  rw [if_neg (by omega), if_neg (by omega), h,
    land_not16_self (h ▸ hx), if_neg (lt_irrefl _)]

theorem cmpBE_lt_iff {a b : BasisElement} (hx : a.index < 2 ^ 16)
    (hy : b.index < 2 ^ 16) :
    cmpBE a b = .lt ↔
      (grade a < grade b ∨ (grade a = grade b ∧ a.index ≠ b.index ∧
        a.index.testBit (trailingZeros16 (a.index ^^^ b.index)) = true)) := by
  unfold cmpBE
  by_cases h1 : grade a < grade b
  · rw [if_pos h1]
    simp [h1]
  rw [if_neg h1]
  by_cases h2 : grade b < grade a
  · rw [if_pos h2]
    constructor
    · intro hc
      exact absurd hc (by decide)
    · rintro (h | ⟨h, -⟩) <;> omega
  rw [if_neg h2]
  have hg : grade a = grade b := by omega
  by_cases hne : a.index = b.index
  · rw [hne, land_not16_self (hne ▸ hx), if_neg (lt_irrefl _)]
    constructor
    · intro hc
      exact absurd hc (by decide)
    · rintro (h | ⟨-, h, -⟩)
      · omega
      · exact absurd rfl h
  · by_cases hb : a.index.testBit (trailingZeros16 (a.index ^^^ b.index)) = true
    · obtain ⟨hswap1, hswap2⟩ := tz_sdiff_of_bit hx hy hne hb
      rw [if_pos (by omega)]
      constructor
      · intro _
        exact Or.inr ⟨hg, hne, hb⟩
      · intro _
        rfl
    · have hbf : a.index.testBit (trailingZeros16 (a.index ^^^ b.index)) =
          false := by
        simpa using hb
      have hby2 : b.index.testBit (trailingZeros16 (b.index ^^^ a.index)) =
          true := by
        rw [Nat.xor_comm]
        obtain ⟨-, hdne, -⟩ := diff_spec hx hy hne
        cases hbyv : b.index.testBit (trailingZeros16 (a.index ^^^ b.index))
        · rw [hbf, hbyv] at hdne
          exact absurd rfl hdne
        · rfl
      obtain ⟨hswap1, hswap2⟩ :=
        tz_sdiff_of_bit hy hx (Ne.symm hne) hby2
      rw [Nat.xor_comm b.index a.index] at hswap1 hswap2
      rw [if_neg (by omega)]
      constructor
      · intro hc
        exact absurd hc (by decide)
      · rintro (h | ⟨-, -, h⟩)
        · omega
        · rw [h] at hbf
          cases hbf

theorem cmpBE_asymm {a b : BasisElement} (hx : a.index < 2 ^ 16)
    (hy : b.index < 2 ^ 16) (h1 : cmpBE a b = .lt) (h2 : cmpBE b a = .lt) :
    False := by
  rw [cmpBE_lt_iff hx hy] at h1
  rw [cmpBE_lt_iff hy hx] at h2
  rcases h1 with h1 | ⟨hg1, hne1, hb1⟩ <;>
    rcases h2 with h2 | ⟨hg2, hne2, hb2⟩
  · omega
  · omega
  · omega
  · rw [Nat.xor_comm] at hb2
    obtain ⟨-, hdne, -⟩ := diff_spec hx hy hne1
    rw [hb1, hb2] at hdne
    exact hdne rfl

theorem cmpBE_total {a b : BasisElement} (hx : a.index < 2 ^ 16)
    (hy : b.index < 2 ^ 16) (hne : a.index ≠ b.index) :
    cmpBE a b = .lt ∨ cmpBE b a = .lt := by
  rw [cmpBE_lt_iff hx hy, cmpBE_lt_iff hy hx]
  rcases lt_trichotomy (grade a) (grade b) with h1 | h1 | h1
  · exact Or.inl (Or.inl h1)
  · by_cases hb : a.index.testBit (trailingZeros16 (a.index ^^^ b.index)) = true
    · exact Or.inl (Or.inr ⟨h1, hne, hb⟩)
    · have hbf : a.index.testBit (trailingZeros16 (a.index ^^^ b.index)) =
          false := by
        simpa using hb
      have hby : b.index.testBit (trailingZeros16 (b.index ^^^ a.index)) =
          true := by
        rw [Nat.xor_comm]
        obtain ⟨-, hdne, -⟩ := diff_spec hx hy hne
        cases hbyv : b.index.testBit (trailingZeros16 (a.index ^^^ b.index))
        · rw [hbf, hbyv] at hdne
          exact absurd rfl hdne
        · rfl
      exact Or.inr (Or.inr ⟨h1.symm, Ne.symm hne, hby⟩)
  · exact Or.inr (Or.inl h1)

theorem cmpBE_gt_iff_lt {a b : BasisElement} (hx : a.index < 2 ^ 16)
    (hy : b.index < 2 ^ 16) (hne : a.index ≠ b.index) :
    cmpBE a b = .gt ↔ cmpBE b a = .lt := by
  constructor
  · intro h
    rcases cmpBE_total hx hy hne with h1 | h1
    · rw [h1] at h
      cases h
    · exact h1
  · intro h
    rcases cmpBE_lt_or_gt a b with h1 | h1
    · exact absurd (cmpBE_asymm hx hy h1 h) (fun hc => hc)
    · exact h1

theorem cmpBE_trans {a b c : BasisElement} (hx : a.index < 2 ^ 16)
    (hy : b.index < 2 ^ 16) (hz : c.index < 2 ^ 16)
    (h1 : cmpBE a b = .lt) (h2 : cmpBE b c = .lt) : cmpBE a c = .lt := by
  rw [cmpBE_lt_iff hx hy] at h1
  rw [cmpBE_lt_iff hy hz] at h2
  rw [cmpBE_lt_iff hx hz]
  rcases h1 with h1 | ⟨hg1, hne1, hb1⟩
  · rcases h2 with h2 | ⟨hg2, -, -⟩
    · exact Or.inl (by omega)
    · exact Or.inl (by omega)
  · rcases h2 with h2 | ⟨hg2, hne2, hb2⟩
    · exact Or.inl (by omega)
    · obtain ⟨hd1a, hd1b, hd1c⟩ := diff_spec hx hy hne1
      obtain ⟨hd2a, hd2b, hd2c⟩ := diff_spec hy hz hne2
      have hby1 : b.index.testBit (trailingZeros16 (a.index ^^^ b.index)) =
          false := by
        cases hv : b.index.testBit (trailingZeros16 (a.index ^^^ b.index))
        · rfl
        · rw [hb1, hv] at hd1b
          exact absurd rfl hd1b
      have hbz2 : c.index.testBit (trailingZeros16 (b.index ^^^ c.index)) =
          false := by
        cases hv : c.index.testBit (trailingZeros16 (b.index ^^^ c.index))
        · rfl
        · rw [hb2, hv] at hd2b
          exact absurd rfl hd2b
      rcases lt_trichotomy (trailingZeros16 (a.index ^^^ b.index))
        (trailingZeros16 (b.index ^^^ c.index)) with hlt | heq | hgt
      · -- the (a, b) difference sits lower: a and c differ there
        have hcz : c.index.testBit (trailingZeros16 (a.index ^^^ b.index)) =
            false := by
          rw [← hd2c _ hlt]
          exact hby1
        have hne3 : a.index ≠ c.index := by
          intro hEq
          rw [← hEq] at hcz
          rw [hb1] at hcz
          cases hcz
        have htz : trailingZeros16 (a.index ^^^ c.index) =
            trailingZeros16 (a.index ^^^ b.index) := by
          apply tz16_eq (Nat.xor_lt_two_pow hx hz)
          · rw [Nat.testBit_xor, hb1, hcz]
            rfl
          · intro j hj
            rw [Nat.testBit_xor, hd1c _ hj, hd2c _ (by omega)]
            exact Bool.xor_self _
        refine Or.inr ⟨by omega, hne3, ?_⟩
        rw [htz]
        exact hb1
      · -- equal positions are impossible: b would both have and lack the bit
        rw [heq] at hby1
        rw [hby1] at hb2
        cases hb2
      · -- the (b, c) difference sits lower: a and c differ there
        have hax : a.index.testBit (trailingZeros16 (b.index ^^^ c.index)) =
            true := by
          rw [hd1c _ hgt]
          exact hb2
        have hne3 : a.index ≠ c.index := by
          intro hEq
          rw [hEq] at hax
          rw [hax] at hbz2
          cases hbz2
        have htz : trailingZeros16 (a.index ^^^ c.index) =
            trailingZeros16 (b.index ^^^ c.index) := by
          apply tz16_eq (Nat.xor_lt_two_pow hx hz)
          · rw [Nat.testBit_xor, hax, hbz2]
            rfl
          · intro j hj
            rw [Nat.testBit_xor, hd1c _ (by omega), hd2c _ hj]
            exact Bool.xor_self _
        refine Or.inr ⟨by omega, hne3, ?_⟩
        rw [htz]
        exact hax

theorem leBE_iff (a b : BasisElement) :
    (cmpBE a b != Ordering.gt) = true ↔ cmpBE a b = .lt := by
  rcases cmpBE_lt_or_gt a b with h | h <;> rw [h] <;> decide

theorem orderedInsert_perm (le : BasisElement → BasisElement → Bool)
    (x : BasisElement) (l : List BasisElement) :
    List.Perm (orderedInsertBE le x l) (x :: l) := by
  induction l with
  | nil => exact List.Perm.refl _
  | cons y ys ih =>
    unfold orderedInsertBE
    cases h : le x y
    · simp only [Bool.false_eq_true, if_false]
      exact (List.Perm.cons y ih).trans (List.Perm.swap x y ys)
    · exact List.Perm.refl _

theorem insertionSort_perm (le : BasisElement → BasisElement → Bool)
    (l : List BasisElement) :
    List.Perm (insertionSortBE le l) l := by
  induction l with
  | nil => exact List.Perm.refl _
  | cons x xs ih =>
    exact (orderedInsert_perm le x (insertionSortBE le xs)).trans
      (List.Perm.cons x ih)

theorem orderedInsert_sorted (x : BasisElement) (l : List BasisElement)
    (hx : x.index < 2 ^ 16) (hl16 : ∀ e ∈ l, e.index < 2 ^ 16)
    (hxl : ∀ e ∈ l, x.index ≠ e.index)
    (hsorted : l.Pairwise (fun a b => cmpBE a b = .lt)) :
    (orderedInsertBE (fun a b => cmpBE a b != Ordering.gt) x l).Pairwise
      (fun a b => cmpBE a b = .lt) := by
  induction l with
  | nil => simp [orderedInsertBE]
  | cons y ys ih =>
    have hy16 := hl16 y (List.mem_cons_self y ys)
    simp only [orderedInsertBE]
    by_cases h : (cmpBE x y != Ordering.gt) = true
    case neg =>
      rw [if_neg h]
      have hgt : cmpBE x y = .gt := by
        rcases cmpBE_lt_or_gt x y with h1 | h1
        · exact absurd (by rw [h1]; decide) h
        · exact h1
      have hyx : cmpBE y x = .lt :=
        (cmpBE_gt_iff_lt hx hy16 (hxl y (List.mem_cons_self y ys))).mp hgt
      rw [List.pairwise_cons]
      constructor
      · intro z hz
        rw [(orderedInsert_perm _ x ys).mem_iff, List.mem_cons] at hz
        rcases hz with rfl | hz
        · exact hyx
        · exact (List.pairwise_cons.mp hsorted).1 z hz
      · exact ih (fun e he => hl16 e (List.mem_cons_of_mem y he))
          (fun e he => hxl e (List.mem_cons_of_mem y he))
          (List.pairwise_cons.mp hsorted).2
    case pos =>
      rw [if_pos h]
      rw [List.pairwise_cons]
      constructor
      · intro z hz
        rw [List.mem_cons] at hz
        have hxy : cmpBE x y = .lt := (leBE_iff x y).mp h
        rcases hz with rfl | hz
        · exact hxy
        · exact cmpBE_trans hx hy16 (hl16 z (List.mem_cons_of_mem y hz)) hxy
            ((List.pairwise_cons.mp hsorted).1 z hz)
      · exact hsorted

theorem insertionSort_sorted (l : List BasisElement)
    (h16 : ∀ e ∈ l, e.index < 2 ^ 16)
    (hdist : l.Pairwise (fun a b => a.index ≠ b.index)) :
    (insertionSortBE (fun a b => cmpBE a b != Ordering.gt) l).Pairwise
      (fun a b => cmpBE a b = .lt) := by
  induction l with
  | nil => simp [insertionSortBE]
  | cons x xs ih =>
    unfold insertionSortBE
    apply orderedInsert_sorted
    · exact h16 x (List.mem_cons_self x xs)
    · intro e he
      exact h16 e (List.mem_cons_of_mem x
        ((insertionSort_perm _ xs).mem_iff.mp he))
    · intro e he
      exact (List.pairwise_cons.mp hdist).1 e
        ((insertionSort_perm _ xs).mem_iff.mp he)
    · exact ih (fun e he => h16 e (List.mem_cons_of_mem x he))
        (List.pairwise_cons.mp hdist).2

theorem basisElement_index (squares : List Int) (i : Nat) :
    (basisElement squares i).index = i := by
  unfold basisElement
  split_ifs <;> rfl

theorem basisElement_scalar (squares : List Int) (i : Nat)
    (hi : i < 2 ^ squares.length) :
    (basisElement squares i).scalar = 1 ∨
      (basisElement squares i).scalar = -1 := by
  unfold basisElement
  split_ifs
  · show (dual squares (fromIndex i)).scalar = 1 ∨
      (dual squares (fromIndex i)).scalar = -1
    rw [dual_eq squares (fromIndex i) hi]
    rcases sign_pm (commutations (fromIndex i).index
        (2 ^ squares.length - 1 - (fromIndex i).index)) with h | h <;>
      rw [show (fromIndex i).index = i from rfl] at h <;>
      simp [fromIndex, h]
  · exact Or.inl rfl

/-- C3, counterexample to the claim at 16 generators: `basis_size()` is
still `2 ^ 16`, but the iteration bound of `basis()` is truncated to the
`u16` value `0`, so `sorted_basis()` is empty instead of `2 ^ 16`
elements. -/
theorem c3_counterexample :
    basisSize (List.replicate 16 (1 : Int)) = 2 ^ 16 ∧
      sortedBasis (List.replicate 16 (1 : Int)) = [] :=
  ⟨by decide, by decide⟩

/-- C3 (amended): for every generator-square sequence of length `n` at
most 15, `basis_size()` returns `2 ^ n`, and `sorted_basis()` returns
exactly `2 ^ n` basis elements - one for each index below `2 ^ n` - with
pairwise distinct indices, sorted strictly ascending in the canonical
`Ord` order, each with scalar `+1` or `-1`. At 16 generators
`basis_size()` is `2 ^ 16` but `sorted_basis()` is empty, because the
iteration bound of `basis()` is truncated to `u16`
(see the counterexample above). -/
theorem c3_sorted_basis (squares : List Int) (hn : squares.length ≤ 15) :
    basisSize squares = 2 ^ squares.length ∧
    (sortedBasis squares).length = 2 ^ squares.length ∧
    (sortedBasis squares).Pairwise (fun a b => cmpBE a b = .lt) ∧
    (sortedBasis squares).Pairwise (fun a b => a.index ≠ b.index) ∧
    (∀ e ∈ sortedBasis squares,
      (e.scalar = 1 ∨ e.scalar = -1) ∧ e.index < 2 ^ squares.length) ∧
    (∀ i < 2 ^ squares.length, ∃ e ∈ sortedBasis squares, e.index = i) := by
  have hbs : basisSize squares = 2 ^ squares.length := by
    rw [basisSize, Nat.one_shiftLeft]
  have hlt : 2 ^ squares.length < 65536 :=
    lt_of_le_of_lt (Nat.pow_le_pow_right (by norm_num) hn) (by norm_num)
  have hmod : basisSize squares % 65536 = 2 ^ squares.length := by
    rw [hbs]
    exact Nat.mod_eq_of_lt hlt
  have hmem_basis : ∀ e ∈ basisList squares,
      ∃ i, i < 2 ^ squares.length ∧ e = basisElement squares i := by
    intro e he
    rw [basisList, List.mem_map] at he
    obtain ⟨i, hi, rfl⟩ := he
    rw [List.mem_range, hmod] at hi
    exact ⟨i, hi, rfl⟩
  have h16 : ∀ e ∈ basisList squares, e.index < 2 ^ 16 := by
    intro e he
    obtain ⟨i, hi, rfl⟩ := hmem_basis e he
    rw [basisElement_index]
    exact lt_of_lt_of_le (lt_trans hi hlt) (by norm_num)
  have hdist : (basisList squares).Pairwise (fun a b => a.index ≠ b.index) := by
    rw [basisList, List.pairwise_map]
    exact (List.pairwise_lt_range (basisSize squares % 65536)).imp
      (fun hab => by
        rw [basisElement_index, basisElement_index]
        exact Nat.ne_of_lt hab)
  have hperm : List.Perm (sortedBasis squares) (basisList squares) :=
    insertionSort_perm _ _
  refine ⟨hbs, hperm.length_eq.trans ?_, ?_, ?_, ?_, ?_⟩
  · rw [basisList, List.length_map, List.length_range, hmod]
  · exact insertionSort_sorted (basisList squares) h16 hdist
  · exact (hperm.pairwise_iff fun hab => Ne.symm hab).mpr hdist
  · intro e he
    obtain ⟨i, hi, rfl⟩ := hmem_basis e (hperm.mem_iff.mp he)
    exact ⟨basisElement_scalar squares i hi, by
      rw [basisElement_index]
      exact hi⟩
  · intro i hi
    refine ⟨basisElement squares i, ?_, basisElement_index squares i⟩
    rw [hperm.mem_iff, basisList, List.mem_map]
    exact ⟨i, by
      rw [List.mem_range, hmod]
      exact hi, rfl⟩

theorem c3_sorted_basis_witness :
    ([1, 1] : List Int).length ≤ 15 ∧
      (sortedBasis [1, 1]).length = 2 ^ ([1, 1] : List Int).length :=
  ⟨by decide, (c3_sorted_basis [1, 1] (by decide)).2.1⟩

/-- C10: for basis elements whose indices fit the `u16` index type,
`cmp` returns `Greater` whenever the indices are equal (in particular on
an element compared with itself) and never returns `Equal`; on distinct
indices it is asymmetric, total and transitive - a strict total order
only on elements with pairwise distinct indices - and it ignores the
scalars entirely. -/
theorem c10_cmp_order (a b c : BasisElement) (hx : a.index < 2 ^ 16)
    (hy : b.index < 2 ^ 16) (hz : c.index < 2 ^ 16) :
    (a.index = b.index → cmpBE a b = .gt) ∧
    cmpBE a b ≠ .eq ∧
    (∀ s t : Int, cmpBE ⟨s, a.index⟩ ⟨t, b.index⟩ = cmpBE a b) ∧
    (a.index ≠ b.index → (cmpBE a b = .lt ↔ cmpBE b a = .gt)) ∧
    (a.index ≠ b.index → (cmpBE a b = .lt ∨ cmpBE b a = .lt)) ∧
    ¬(cmpBE a b = .lt ∧ cmpBE b a = .lt) ∧
    (cmpBE a b = .lt → cmpBE b c = .lt → cmpBE a c = .lt) :=
  ⟨fun h => cmpBE_gt_of_index_eq hx h,
   cmpBE_never_eq a b,
   fun s t => cmpBE_scalar_free a b s t,
   fun hne => (cmpBE_gt_iff_lt hy hx (Ne.symm hne)).symm,
   fun hne => cmpBE_total hx hy hne,
   fun h => cmpBE_asymm hx hy h.1 h.2,
   fun h1 h2 => cmpBE_trans hx hy hz h1 h2⟩

theorem c10_cmp_order_witness :
    ((1 : Nat) < 2 ^ 16 ∧ (2 : Nat) < 2 ^ 16 ∧ (3 : Nat) < 2 ^ 16) ∧
      cmpBE ⟨1, 1⟩ ⟨-2, 2⟩ ≠ .eq :=
  ⟨⟨by decide, by decide, by decide⟩,
   (c10_cmp_order ⟨1, 1⟩ ⟨-2, 2⟩ ⟨1, 3⟩ (by decide) (by decide)
     (by decide)).2.1⟩

end GA
